import Mathlib

/-!
Verification of the interactive AI code-modification CLI (`index.js`).

Strings are modelled as `List Char`; the regular-expression matches of
`parseAIResponse`, the recursive directory walk of `getProjectContext`,
the bounded preview of `showDiff`, the confirmation/apply stage and the
REPL lifecycle of `main` are embedded as executable Lean functions that
follow the source line by line.
-/

namespace ProyectoIA

/-- JavaScript whitespace class: the characters matched by `\s` in a regex
and stripped by `String.prototype.trim`. -/
def jsWsChars : List Char :=
  ['\t', '\n', '\x0b', '\x0c', '\r', ' ', '\u00A0', '\u1680',
   '\u2000', '\u2001', '\u2002', '\u2003', '\u2004', '\u2005', '\u2006',
   '\u2007', '\u2008', '\u2009', '\u200A', '\u2028', '\u2029', '\u202F',
   '\u205F', '\u3000', '\uFEFF']

def isJsWs (c : Char) : Bool := jsWsChars.contains c

/-- `String.prototype.trim`: strip JS whitespace from both ends. -/
def jsTrim (l : List Char) : List Char :=
  ((l.dropWhile isJsWs).reverse.dropWhile isJsWs).reverse

/-- Case mapping used by `toLowerCase` on the characters this program
compares (ASCII letters, plus `Í` for the confirmation token `sí`);
all other characters are left unchanged. -/
def jsLowerChar (c : Char) : Char :=
  if 'A' ≤ c ∧ c ≤ 'Z' then Char.ofNat (c.toNat + 32)
  else if c = 'Í' then 'í' else c

def jsLower (l : List Char) : List Char := l.map jsLowerChar

/-- ASCII case folding used by the `i` regex flag (the pattern is ASCII). -/
def foldChar (c : Char) : Char :=
  if 'A' ≤ c ∧ c ≤ 'Z' then Char.ofNat (c.toNat + 32) else c

/-- Literal list equality check. -/
def eqL : List Char → List Char → Bool
  | [], [] => true
  | c :: cs, d :: ds => c == d && eqL cs ds
  | _, _ => false

/-- Does `s` start with the literal pattern `pat`? -/
def startsWithL : List Char → List Char → Bool
  | [], _ => true
  | _ :: _, [] => false
  | p :: ps, c :: cs => p == c && startsWithL ps cs

/-- Does `s` start with `pat`, comparing case-insensitively? -/
def startsWithCI : List Char → List Char → Bool
  | [], _ => true
  | _ :: _, [] => false
  | p :: ps, c :: cs => foldChar p == foldChar c && startsWithCI ps cs

/-- Case-insensitive equality of two character lists. -/
def ciEqL : List Char → List Char → Bool
  | [], [] => true
  | c :: cs, d :: ds => foldChar c == foldChar d && ciEqL cs ds
  | _, _ => false

/-- Does `pat` occur as a contiguous substring of `s`? -/
def containsSub (pat : List Char) : List Char → Bool
  | [] => startsWithL pat []
  | c :: cs => startsWithL pat (c :: cs) || containsSub pat cs

/-- `String.prototype.split('\n')`: `""` yields `[""]`, separators at the
ends yield empty pieces. -/
def splitLines : List Char → List (List Char)
  | [] => [[]]
  | c :: cs =>
    if c = '\n' then [] :: splitLines cs
    else
      match splitLines cs with
      | l :: ls => (c :: l) :: ls
      | [] => [[c]]

/-- `Array.prototype.join('\n')`. -/
def joinLines : List (List Char) → List Char
  | [] => []
  | [l] => l
  | l :: ls => l ++ '\n' :: joinLines ls

/-- `'x'.repeat(n)`. -/
def repChar (c : Char) (n : Nat) : List Char := List.replicate n c

/-! ## Response parser (`parseAIResponse`, index.js lines 177–208) -/

/-- The literal of the label regex `/ARCHIVO:\s*([^\n]+)/i`. -/
def archivoPat : List Char := String.data "ARCHIVO:"

/-- Capture of `\s*([^\n]+)` at the current position: greedy whitespace,
then at least one non-newline character, with the regex engine's
backtracking when the rest of the input is all whitespace. -/
def wsCapture (rest : List Char) : Option (List Char) :=
  if (rest.dropWhile isJsWs).isEmpty then
    -- `rest` is all whitespace: `\s*` backs off to let `[^\n]+` take the
    -- last character that is not a newline, if any.
    match (rest.reverse.dropWhile (fun c => c = '\n')) with
    | [] => none
    | c :: _ => some [c]
  else
    some ((rest.dropWhile isJsWs).takeWhile (fun c => c ≠ '\n'))

/-- Leftmost match of `/ARCHIVO:\s*([^\n]+)/i`, returning capture group 1. -/
def matchLabel : List Char → Option (List Char)
  | [] => none
  | c :: cs =>
    if startsWithCI archivoPat (c :: cs) then
      match wsCapture ((c :: cs).drop archivoPat.length) with
      | some cap => some cap
      | none => matchLabel cs
    else matchLabel cs

/-- `\w` of the fence regex: `[A-Za-z0-9_]`. -/
def isWordChar (c : Char) : Bool :=
  decide (('a' ≤ c ∧ c ≤ 'z') ∨ ('A' ≤ c ∧ c ≤ 'Z') ∨ ('0' ≤ c ∧ c ≤ '9') ∨ c = '_')

/-- The three backticks opening and closing a fence. -/
def ticks : List Char := ['`', '`', '`']

/-- The closing marker `\n\`\`\`` that the lazy capture stops at. -/
def closePat : List Char := '\n' :: ticks

/-- Lazy capture `([\s\S]*?)` before `\n\`\`\``: the content up to the
first occurrence of the closing marker. -/
def findBeforeClose : List Char → Option (List Char)
  | [] => none
  | c :: cs =>
    if startsWithL closePat (c :: cs) then some []
    else (findBeforeClose cs).map (fun l => c :: l)

/-- One attempt of `/\`\`\`[\w]*\n([\s\S]*?)\n\`\`\`/` anchored at the head
of `s`: the opening fence (three backticks, a maximal run of word
characters, then a newline), then the lazy capture. -/
def fenceAttempt (s : List Char) : Option (List Char) :=
  if startsWithL ticks s then
    match (s.drop 3).drop ((s.drop 3).takeWhile isWordChar).length with
    | '\n' :: rest => findBeforeClose rest
    | _ => none
  else none

/-- Leftmost match of the fenced-code-block regex, returning the interior. -/
def matchFence : List Char → Option (List Char)
  | [] => none
  | c :: cs =>
    match fenceAttempt (c :: cs) with
    | some body => some body
    | none => matchFence cs

structure ParsedEdit where
  filePath : List Char
  codeBlock : List Char
deriving DecidableEq

/-- `parseAIResponse` (index.js 177–208): the label match gives the file
path (trimmed), the fence match gives the code block; either one missing
makes the whole parse return `null`. -/
def parseAIResponse (response : List Char) : Option ParsedEdit :=
  match matchLabel response with
  | none => none
  | some cap =>
    match matchFence response with
    | none => none
    | some codeBlock => some ⟨jsTrim cap, codeBlock⟩

example :
    parseAIResponse (String.data "ARCHIVO: src/a.txt\n```text\nhello\n```\nEXPLICACIÓN: ...")
      = some ⟨String.data "src/a.txt", String.data "hello"⟩ := by decide

example : parseAIResponse (String.data "no label\n```js\nx\n```") = none := by decide

example : parseAIResponse (String.data "ARCHIVO: a.js\nno fence") = none := by decide

/-- Does a valid opening fence (three backticks, a maximal word-character
run, then a newline) sit at the head of `s`? -/
def openShapeB (s : List Char) : Bool :=
  startsWithL ticks s &&
    match (s.drop 3).drop ((s.drop 3).takeWhile isWordChar).length with
    | '\n' :: _ => true
    | _ => false

/-- The reply contains the (case-insensitive) label token somewhere. -/
def HasLabelTok (r : List Char) : Prop :=
  ∃ i < r.length, startsWithCI archivoPat (r.drop i) = true

/-- The reply contains a complete fenced code block: an opening fence
with a word-character language tag, a newline, some content, and the
closing `\n\`\`\``. -/
def HasFencedBlock (r : List Char) : Prop :=
  ∃ d tag body e : List Char, (∀ c ∈ tag, isWordChar c = true)
    ∧ r = d ++ (ticks ++ (tag ++ '\n' :: (body ++ (closePat ++ e))))

/-! ## Project context collector (`getProjectContext`, index.js lines 62–138)

The filesystem seen by the walk is modelled as a tree: a `file` carries
`some` content when `fs.readFile(…, 'utf8')` succeeds and `none` when it
rejects (binary/undecodable data); `special` is an entry whose `stat` is
neither a file nor a directory; `broken` is an entry whose `stat` call
rejects. Directory listings keep `fs.readdir` order. -/

inductive FsEntry where
  | file (name : List Char) (content : Option (List Char))
  | dir (name : List Char) (children : List FsEntry)
  | special (name : List Char)
  | broken (name : List Char)

def entryName : FsEntry → List Char
  | .file n _ => n
  | .dir n _ => n
  | .special n => n
  | .broken n => n

/-- The fixed `ignoredItems` array (index.js 63–75). -/
def ignoredItems : List (List Char) :=
  [String.data "node_modules", String.data ".git", String.data ".vscode",
   String.data ".DS_Store", String.data "package-lock.json", String.data "yarn.lock",
   String.data "index.js", String.data ".env", String.data "dist",
   String.data "build", String.data "coverage"]

/-- The fixed `ignoredExtensions` array (index.js 77–83). -/
def ignoredExtensions : List (List Char) :=
  [String.data ".exe", String.data ".dll", String.data ".so", String.data ".dylib",
   String.data ".jpg", String.data ".jpeg", String.data ".png", String.data ".gif",
   String.data ".bmp", String.data ".ico", String.data ".mp3", String.data ".mp4",
   String.data ".avi", String.data ".mov", String.data ".zip", String.data ".rar",
   String.data ".tar", String.data ".gz", String.data ".pdf", String.data ".doc",
   String.data ".docx"]

/-- `path.extname` on a basename: the suffix from the last `.`, empty when
there is no dot or the only dot is the leading one, with `..` special. -/
def extname (name : List Char) : List Char :=
  match name.reverse.findIdx? (fun c => c == '.') with
  | none => []
  | some k =>
    let i := name.length - 1 - k
    if i = 0 then []
    else if name = ['.', '.'] then []
    else name.drop i

/-- `path.join`/`path.relative` on clean names: the relative path of the
entry `name` inside the directory whose relative path is `base`. -/
def relJoin (base name : List Char) : List Char :=
  if base.isEmpty then name else base ++ '/' :: name

def fileHeader (rel : List Char) : List Char :=
  String.data "--- INICIO ARCHIVO: " ++ rel ++ String.data " ---\n"

def fileFooter (rel : List Char) : List Char :=
  String.data "\n--- FIN ARCHIVO: " ++ rel ++ String.data " ---\n\n"

mutual

/-- Contribution of one directory entry to the context string (the loop
body, index.js 90–131): entries named in `ignoredItems` are skipped,
directories are recursed into, files with an ignored (lowercased)
extension or an unreadable content are skipped, and a readable file
contributes its delimited text. `special` and `broken` contribute
nothing (neither `isDirectory` nor `isFile`, resp. failed `stat`). -/
def ctxEntry (base : List Char) : FsEntry → List Char
  | .file name content =>
    if name ∈ ignoredItems then []
    else if (extname name).map jsLowerChar ∈ ignoredExtensions then []
    else
      match content with
      | none => []
      | some text =>
        fileHeader (relJoin base name) ++ text ++ fileFooter (relJoin base name)
  | .dir name children =>
    if name ∈ ignoredItems then []
    else getProjectContext (relJoin base name) children
  | .special _ => []
  | .broken _ => []

/-- `getProjectContext` on a directory listing: the concatenation of the
contributions of its entries in listing order (depth-first, since a
subdirectory's contribution is its own full context). `base` is the
directory's path relative to the project root (`[]` at the root). -/
def getProjectContext (base : List Char) : List FsEntry → List Char
  | [] => []
  | e :: es => ctxEntry base e ++ getProjectContext base es

end

mutual

/-- The files a directory entry contributes to the context, as
(relative path, raw text) pairs, in traversal order. -/
def includedEntry (base : List Char) : FsEntry → List (List Char × List Char)
  | .file name content =>
    if name ∈ ignoredItems then []
    else if (extname name).map jsLowerChar ∈ ignoredExtensions then []
    else
      match content with
      | none => []
      | some text => [(relJoin base name, text)]
  | .dir name children =>
    if name ∈ ignoredItems then []
    else includedList (relJoin base name) children
  | .special _ => []
  | .broken _ => []

/-- The files a directory listing contributes, depth-first. -/
def includedList (base : List Char) : List FsEntry → List (List Char × List Char)
  | [] => []
  | e :: es => includedEntry base e ++ includedList base es

end

/-- Delimited rendering of one included file. -/
def renderFile (f : List Char × List Char) : List Char :=
  fileHeader f.1 ++ f.2 ++ fileFooter f.1

/-- Concatenated rendering of a list of included files. -/
def renderFiles : List (List Char × List Char) → List Char
  | [] => []
  | f :: fs => renderFile f ++ renderFiles fs

mutual

/-- Every file node of an entry, ignored or not, readable or not, with its
component path (`pre` is the component path of the containing directory). -/
def allFilesEntry (pre : List (List Char)) : FsEntry → List (List (List Char) × Option (List Char))
  | .file name content => [(pre ++ [name], content)]
  | .dir name children => allFilesList (pre ++ [name]) children
  | .special _ => []
  | .broken _ => []

/-- Every file node of a directory listing, depth-first. -/
def allFilesList (pre : List (List Char)) : List FsEntry → List (List (List Char) × Option (List Char))
  | [] => []
  | e :: es => allFilesEntry pre e ++ allFilesList pre es

end

/-- Rendering of a component path as a relative path string. -/
def renderComps (comps : List (List Char)) : List Char :=
  comps.foldl relJoin []

/-- The spec's inclusion rule for a file node: readable, no path component
in the name ignore set, and lowercased extension not in the extension
ignore set. -/
def includeCond (x : List (List Char) × Option (List Char)) : Option (List Char × List Char) :=
  match x.2 with
  | none => none
  | some text =>
    if x.1.any (fun n => n ∈ ignoredItems) then none
    else if (extname (x.1.getLastD [])).map jsLowerChar ∈ ignoredExtensions then none
    else some (renderComps x.1, text)

example :
    getProjectContext []
      [FsEntry.file (String.data "a.txt") (some (String.data "A")),
       FsEntry.file (String.data "b.png") (some (String.data "B")),
       FsEntry.dir (String.data "sub")
         [FsEntry.file (String.data "index.js") (some (String.data "X")),
          FsEntry.file (String.data "c.md") (some (String.data "C"))],
       FsEntry.broken (String.data "dev"),
       FsEntry.file (String.data "bad.bin") none]
      = String.data "--- INICIO ARCHIVO: a.txt ---\nA\n--- FIN ARCHIVO: a.txt ---\n\n--- INICIO ARCHIVO: sub/c.md ---\nC\n--- FIN ARCHIVO: sub/c.md ---\n\n" := by
  decide

/-! ## Preview (`showDiff`, index.js 215–241, and the new-file branch of
`main`, index.js 387–395) -/

/-- `Array.prototype.slice(a, b)` for in-range non-negative indices. -/
def jsSlice (l : List (List Char)) (a b : Nat) : List (List Char) :=
  (l.drop a).take (b - a)

/-- The line printed by the `forEach` callback: `` `${i + 1}: ${line}` ``. -/
def numberedLine (i : Nat) (line : List Char) : List Char :=
  (Nat.repr (i + 1)).data ++ ':' :: ' ' :: line

/-- `lines.forEach((line, i) => console.log(`${i + 1}: ${line}`))`,
collecting the printed lines. -/
def forEachNumbered : Nat → List (List Char) → List (List Char)
  | _, [] => []
  | i, line :: rest => numberedLine i line :: forEachNumbered (i + 1) rest

/-- `` `... y ${n} líneas más` ``. -/
def moreLinesMsg (n : Nat) : List Char :=
  String.data "... y " ++ (Nat.repr n).data ++ String.data " líneas más"

/-- `showDiff`: the sequence of lines printed to the console. -/
def showDiff (oldContent newContent : List Char) : List (List Char) :=
  let oldLines := splitLines oldContent
  let newLines := splitLines newContent
  [String.data "\n📋 COMPARACIÓN DE CAMBIOS:", repChar '=' 50,
   String.data "🔴 CONTENIDO ANTERIOR:", repChar '-' 30]
  ++ forEachNumbered 0 (jsSlice oldLines 0 10)
  ++ (if oldLines.length > 10 then [moreLinesMsg (oldLines.length - 10)] else [])
  ++ [String.data "\n🟢 CONTENIDO NUEVO:", repChar '-' 30]
  ++ forEachNumbered 0 (jsSlice newLines 0 10)
  ++ (if newLines.length > 10 then [moreLinesMsg (newLines.length - 10)] else [])
  ++ [repChar '=' 50]

/-- The new-file branch of `main` (index.js 387–395): the truncated
preview of the code block when the target file does not exist. -/
def newFilePreview (codeBlock : List Char) : List (List Char) :=
  [String.data "\n📋 CONTENIDO DEL NUEVO ARCHIVO:", repChar '-' 40,
   joinLines (jsSlice (splitLines codeBlock) 0 15)]
  ++ (if (splitLines codeBlock).length > 15 then
        [moreLinesMsg ((splitLines codeBlock).length - 15)] else [])
  ++ [repChar '-' 40]

/-! ## Apply stage and confirmation (`main`, index.js 397–429) -/

/-- The files on disk: an association list from path to content. -/
abbrev Fs : Type := List (List Char × List Char)

/-- `fs.writeFile(p, c)`: overwrite the file at `p`, or create it. -/
def fsWrite : Fs → List Char → List Char → Fs
  | [], p, c => [(p, c)]
  | (q, d) :: rest, p, c =>
    if q = p then (p, c) :: rest else (q, d) :: fsWrite rest p c

/-- `fs.readFile(p)`. -/
def fsRead : Fs → List Char → Option (List Char)
  | [], _ => none
  | (q, d) :: rest, p => if q = p then some d else fsRead rest p

inductive ConfirmOutcome where
  | applied
  | copied
  | cancelled
deriving DecidableEq

/-- The confirmation callback (index.js 403–429): the answer is
lowercased and trimmed; `s`/`si`/`sí` writes the code block to the target
file (after `mkdir -p` of its parent, which does not change any file
content), `c`/`copiar` copies the code block to the clipboard, and
anything else cancels. -/
def confirmStage (edit : ParsedEdit) (answer : List Char) (fs : Fs)
    (clip : Option (List Char)) : Fs × Option (List Char) × ConfirmOutcome :=
  let response := jsTrim (jsLower answer)
  if response = String.data "s" ∨ response = String.data "si" ∨ response = String.data "sí" then
    (fsWrite fs edit.filePath edit.codeBlock, clip, ConfirmOutcome.applied)
  else if response = String.data "c" ∨ response = String.data "copiar" then
    (fs, some edit.codeBlock, ConfirmOutcome.copied)
  else
    (fs, clip, ConfirmOutcome.cancelled)

inductive TurnOutcome where
  | parseFailed
  | confirmed (outcome : ConfirmOutcome)
deriving DecidableEq

/-- One request turn after the AI reply arrives (index.js 361–429):
parse the reply; on failure report and return to the prompt touching
nothing; on success run the confirmation stage. -/
def processTurn (aiResponse answer : List Char) (fs : Fs)
    (clip : Option (List Char)) : Fs × Option (List Char) × TurnOutcome :=
  match parseAIResponse aiResponse with
  | none => (fs, clip, TurnOutcome.parseFailed)
  | some edit =>
    match confirmStage edit answer fs clip with
    | (fs2, clip2, o) => (fs2, clip2, TurnOutcome.confirmed o)

/-! ## REPL lifecycle (`main`, index.js 282–471) -/

/-- `userInput.toLowerCase() === 'salir' || userInput.toLowerCase() === 'exit'`
on the already-trimmed input. -/
def isExitCmd (userInput : List Char) : Bool :=
  jsLower userInput == String.data "salir" || jsLower userInput == String.data "exit"

/-- What the run of `main` did: how many times `browser.close()` ran and
the `process.exit` code (`none` while the REPL is still waiting). -/
structure ReplOutcome where
  browserCloses : Nat
  exitCode : Option Nat
deriving DecidableEq

/-- The `rl.on('line')` loop: `replies` is the stream of results of
`askAI` (`none` when the remote call throws, recovered per turn); an exit
token closes the interface, whose `close` handler closes the browser once
and exits with code `0`; empty input re-prompts; a parsed reply consumes
the next input line as the confirmation answer. -/
def runRepl : List (Option (List Char)) → List (List Char) → ReplOutcome
  | _, [] => ⟨0, none⟩
  | rs, l :: ls =>
    if isExitCmd (jsTrim l) then ⟨1, some 0⟩
    else if (jsTrim l).isEmpty then runRepl rs ls
    else
      match rs with
      | [] => runRepl [] ls
      | none :: rs2 => runRepl rs2 ls
      | some rep :: rs2 =>
        -- `if (!parsedResponse) … rl.prompt()` versus the confirmation
        -- question, which consumes the next input line as its answer
        if (parseAIResponse rep).isNone then runRepl rs2 ls
        else
          match ls with
          | [] => ⟨0, none⟩
          | _ :: ls2 => runRepl rs2 ls2

/-- How startup went: `ok` reaches the REPL; `failBeforeBrowser` throws
before `puppeteer.launch` assigns `browser`; `failAfterBrowser` throws
after it; `unhandledRejection` is the top-level `main().catch` path. -/
inductive SetupResult where
  | ok
  | failBeforeBrowser
  | failAfterBrowser
  | unhandledRejection
deriving DecidableEq

/-- The whole `main` lifecycle: a fatal setup error closes the browser if
it exists and exits `1`; an unhandled top-level rejection exits `1`;
otherwise the REPL runs. -/
def runMain (setup : SetupResult) (replies : List (Option (List Char)))
    (inputs : List (List Char)) : ReplOutcome :=
  match setup with
  | .ok => runRepl replies inputs
  | .failBeforeBrowser => ⟨0, some 1⟩
  | .failAfterBrowser => ⟨1, some 1⟩
  | .unhandledRejection => ⟨0, some 1⟩

example : runMain SetupResult.ok [] [String.data "EXIT"] = ⟨1, some 0⟩ := by decide

example :
    runRepl [some (String.data "ARCHIVO: a\n```\nx\n```")]
      [String.data "hola", String.data "n", String.data "salir"] = ⟨1, some 0⟩ := by
  decide

/-! ## Helper lemmas -/

theorem getProjectContext_append (base : List Char) (xs ys : List FsEntry) :
    getProjectContext base (xs ++ ys)
      = getProjectContext base xs ++ getProjectContext base ys := by
  induction xs with
  | nil => simp [getProjectContext]
  | cons e es ih => simp [getProjectContext, ih]

theorem ctxEntry_file_unreadable (base n : List Char) :
    ctxEntry base (FsEntry.file n none) = [] := by
  unfold ctxEntry
  split
  · rfl
  · split <;> rfl

theorem fsRead_fsWrite (fs : Fs) (p c : List Char) :
    fsRead (fsWrite fs p c) p = some c := by
  induction fs with
  | nil => simp [fsWrite, fsRead]
  | cons hd tl ih =>
    obtain ⟨q, d⟩ := hd
    by_cases h : q = p
    · simp [fsWrite, fsRead, h]
    · simp [fsWrite, fsRead, h, ih]

theorem fsWrite_fsWrite (fs : Fs) (p c : List Char) :
    fsWrite (fsWrite fs p c) p c = fsWrite fs p c := by
  induction fs with
  | nil => simp [fsWrite]
  | cons hd tl ih =>
    obtain ⟨q, d⟩ := hd
    by_cases h : q = p
    · simp [fsWrite, h]
    · simp [fsWrite, h, ih]

theorem jsSlice_zero_take (l : List (List Char)) (b : Nat) :
    jsSlice l 0 b = l.take b := by
  simp [jsSlice]

theorem forEachNumbered_length (i : Nat) (ls : List (List Char)) :
    (forEachNumbered i ls).length = ls.length := by
  induction ls generalizing i with
  | nil => rfl
  | cons l rest ih => simp [forEachNumbered, ih]

theorem renderFiles_append (a b : List (List Char × List Char)) :
    renderFiles (a ++ b) = renderFiles a ++ renderFiles b := by
  induction a with
  | nil => simp [renderFiles]
  | cons f fs ih => simp [renderFiles, ih]

mutual

theorem ctxEntry_renders (base : List Char) :
    ∀ e : FsEntry, ctxEntry base e = renderFiles (includedEntry base e)
  | .file n c => by
    by_cases h1 : n ∈ ignoredItems
    · simp [ctxEntry, includedEntry, h1, renderFiles]
    · by_cases h2 : (extname n).map jsLowerChar ∈ ignoredExtensions
      · simp [ctxEntry, includedEntry, h1, h2, renderFiles]
      · cases c with
        | none => simp [ctxEntry, includedEntry, h1, h2, renderFiles]
        | some t =>
          simp [ctxEntry, includedEntry, h1, h2, renderFiles, renderFile]
  | .dir n ch => by
    by_cases h1 : n ∈ ignoredItems
    · simp [ctxEntry, includedEntry, h1, renderFiles]
    · simp [ctxEntry, includedEntry, h1, ctx_renders_list (relJoin base n) ch]
  | .special n => rfl
  | .broken n => rfl

theorem ctx_renders_list (base : List Char) :
    ∀ es : List FsEntry, getProjectContext base es = renderFiles (includedList base es)
  | [] => rfl
  | e :: es => by
    simp [getProjectContext, includedList, renderFiles_append,
      ctxEntry_renders base e, ctx_renders_list base es]

end

mutual

theorem allFilesEntry_comps (pre : List (List Char)) :
    ∀ (e : FsEntry) (x : List (List Char) × Option (List Char)),
      x ∈ allFilesEntry pre e → ∃ suf, x.1 = pre ++ suf
  | .file n c, x, hx => by
    simp only [allFilesEntry, List.mem_singleton] at hx
    exact ⟨[n], by rw [hx]⟩
  | .dir n ch, x, hx => by
    obtain ⟨suf, hsuf⟩ := allFilesList_comps (pre ++ [n]) ch x hx
    exact ⟨n :: suf, by rw [hsuf]; simp⟩
  | .special n, x, hx => absurd hx (List.not_mem_nil x)
  | .broken n, x, hx => absurd hx (List.not_mem_nil x)

theorem allFilesList_comps (pre : List (List Char)) :
    ∀ (es : List FsEntry) (x : List (List Char) × Option (List Char)),
      x ∈ allFilesList pre es → ∃ suf, x.1 = pre ++ suf
  | [], x, hx => absurd hx (List.not_mem_nil x)
  | e :: es, x, hx => by
    rcases List.mem_append.mp hx with h | h
    · exact allFilesEntry_comps pre e x h
    · exact allFilesList_comps pre es x h

end

mutual

theorem includedEntry_filter (pre : List (List Char))
    (hpre : ∀ p ∈ pre, p ∉ ignoredItems) :
    ∀ e : FsEntry,
      includedEntry (renderComps pre) e = (allFilesEntry pre e).filterMap includeCond
  | .file n c => by
    cases c with
    | none =>
      have : includeCond (pre ++ [n], none) = none := rfl
      simp only [allFilesEntry, List.filterMap_cons, this, List.filterMap_nil]
      unfold includedEntry
      split
      · rfl
      · split <;> rfl
    | some t =>
      by_cases h1 : n ∈ ignoredItems
      · have hany : (pre ++ [n]).any (fun m => m ∈ ignoredItems) = true :=
          List.any_eq_true.mpr ⟨n, by simp, by simp [h1]⟩
        simp [includedEntry, allFilesEntry, includeCond, h1, hany]
      · have hany : (pre ++ [n]).any (fun m => m ∈ ignoredItems) = false := by
          rw [List.any_eq_false]
          intro p hp
          rcases List.mem_append.mp hp with h | h
          · simpa using hpre p h
          · simp only [List.mem_singleton] at h
            subst h
            simpa using h1
        by_cases h2 : (extname n).map jsLowerChar ∈ ignoredExtensions
        · simp [includedEntry, allFilesEntry, includeCond, h1, h2, hany,
            List.getLastD_concat]
        · simp [includedEntry, allFilesEntry, includeCond, h1, h2, hany,
            List.getLastD_concat, renderComps]
  | .dir n ch => by
    by_cases h1 : n ∈ ignoredItems
    · have hall : ∀ x ∈ allFilesList (pre ++ [n]) ch, includeCond x = none := by
        intro x hx
        obtain ⟨suf, hsuf⟩ := allFilesList_comps (pre ++ [n]) ch x hx
        have hn : n ∈ x.1 := by rw [hsuf]; simp
        have hany : x.1.any (fun m => m ∈ ignoredItems) = true :=
          List.any_eq_true.mpr ⟨n, hn, by simp [h1]⟩
        unfold includeCond
        cases hx2 : x.2 with
        | none => rfl
        | some t => simp [hany]
      simp [includedEntry, allFilesEntry, h1, List.filterMap_eq_nil_iff.mpr hall]
    · have hpre2 : ∀ p ∈ pre ++ [n], p ∉ ignoredItems := by
        intro p hp
        rcases List.mem_append.mp hp with h | h
        · exact hpre p h
        · simp only [List.mem_singleton] at h
          subst h
          exact h1
      have hrel : renderComps (pre ++ [n]) = relJoin (renderComps pre) n := by
        simp [renderComps]
      have := includedList_filter (pre ++ [n]) hpre2 ch
      rw [hrel] at this
      simp [includedEntry, allFilesEntry, h1, this]
  | .special n => rfl
  | .broken n => rfl

theorem includedList_filter (pre : List (List Char))
    (hpre : ∀ p ∈ pre, p ∉ ignoredItems) :
    ∀ es : List FsEntry,
      includedList (renderComps pre) es = (allFilesList pre es).filterMap includeCond
  | [] => rfl
  | e :: es => by
    simp [includedList, allFilesList, List.filterMap_append,
      includedEntry_filter pre hpre e, includedList_filter pre hpre es]

end

/-! ## Parser lemmas -/

theorem startsWithL_append_self (p x : List Char) : startsWithL p (p ++ x) = true := by
  induction p with
  | nil => rfl
  | cons c cs ih => simp [startsWithL, ih]

theorem startsWithL_decomp {p s : List Char} (h : startsWithL p s = true) :
    ∃ t, s = p ++ t := by
  induction p generalizing s with
  | nil => exact ⟨s, rfl⟩
  | cons c cs ih =>
    cases s with
    | nil => exact absurd h (by simp [startsWithL])
    | cons x xs =>
      simp only [startsWithL, Bool.and_eq_true, beq_iff_eq] at h
      obtain ⟨t, ht⟩ := ih h.2
      exact ⟨t, by rw [List.cons_append, ← ht, h.1]⟩

theorem ciEqL_length {u v : List Char} (h : ciEqL u v = true) : u.length = v.length := by
  induction u generalizing v with
  | nil => cases v with
    | nil => rfl
    | cons d ds => exact absurd h (by simp [ciEqL])
  | cons c cs ih =>
    cases v with
    | nil => exact absurd h (by simp [ciEqL])
    | cons d ds =>
      simp only [ciEqL, Bool.and_eq_true] at h
      simp [ih h.2]

theorem startsWithCI_of_ciEqL {u v : List Char} (h : ciEqL u v = true) (x : List Char) :
    startsWithCI v (u ++ x) = true := by
  induction u generalizing v with
  | nil =>
    cases v with
    | nil => rfl
    | cons d ds => exact absurd h (by simp [ciEqL])
  | cons c cs ih =>
    cases v with
    | nil => exact absurd h (by simp [ciEqL])
    | cons d ds =>
      simp only [ciEqL, Bool.and_eq_true, beq_iff_eq] at h
      simp [startsWithCI, h.1, ih h.2]

theorem matchLabel_skip (a s : List Char)
    (h : ∀ i < a.length, startsWithCI archivoPat ((a ++ s).drop i) = false) :
    matchLabel (a ++ s) = matchLabel s := by
  induction a with
  | nil => rfl
  | cons x a ih =>
    have h0 : startsWithCI archivoPat (x :: (a ++ s)) = false := by
      simpa using h 0 (by simp)
    rw [List.cons_append, matchLabel, h0]
    exact ih fun i hi => by
      simpa [List.drop_succ_cons] using h (i + 1) (by simpa using Nat.succ_lt_succ hi)

theorem dropWhile_idem (p : Char → Bool) (l : List Char) :
    (l.dropWhile p).dropWhile p = l.dropWhile p := by
  induction l with
  | nil => rfl
  | cons x xs ih =>
    by_cases h : p x = true
    · simp [List.dropWhile_cons, h, ih]
    · simp [List.dropWhile_cons, h]

theorem jsTrim_dropWhile (b : List Char) : jsTrim (b.dropWhile isJsWs) = jsTrim b := by
  unfold jsTrim
  rw [dropWhile_idem]

theorem wsCapture_content (b c₁ : List Char) (hnl : '\n' ∉ b) (hne : jsTrim b ≠ []) :
    wsCapture (b ++ '\n' :: c₁) = some (b.dropWhile isJsWs) := by
  have hbd : b.dropWhile isJsWs ≠ [] := by
    intro hd
    exact hne (by simp [jsTrim, hd])
  have h1 : (List.dropWhile isJsWs b).isEmpty = false := List.isEmpty_eq_false.mpr hbd
  have hsplit : (b ++ '\n' :: c₁).dropWhile isJsWs = b.dropWhile isJsWs ++ '\n' :: c₁ := by
    rw [List.dropWhile_append, h1]
    rfl
  have h2 : (List.dropWhile isJsWs b ++ '\n' :: c₁).isEmpty = false := by
    cases List.dropWhile isJsWs b <;> rfl
  unfold wsCapture
  rw [hsplit]
  simp only [h2, Bool.false_eq_true, if_false]
  have hall : ∀ ch ∈ b.dropWhile isJsWs, (ch ≠ '\n' : Bool) = true := by
    intro ch hch
    have : ch ∈ b := (List.dropWhile_sublist isJsWs).subset hch
    simp only [decide_eq_true_eq]
    intro hEq
    exact hnl (hEq ▸ this)
  rw [List.takeWhile_append_of_pos hall]
  simp [List.takeWhile_cons]

theorem matchLabel_hit (lbl rest cap : List Char) (hl : ciEqL lbl archivoPat = true)
    (hc : wsCapture rest = some cap) : matchLabel (lbl ++ rest) = some cap := by
  cases lbl with
  | nil => exact absurd hl (by decide)
  | cons c cs =>
    have hs : startsWithCI archivoPat (c :: (cs ++ rest)) = true := by
      have := startsWithCI_of_ciEqL hl rest
      simpa using this
    have hlen : (c :: cs).length = archivoPat.length := ciEqL_length hl
    have hdrop : (c :: (cs ++ rest)).drop archivoPat.length = rest := by
      rw [← hlen, show c :: (cs ++ rest) = (c :: cs) ++ rest from rfl]
      exact List.drop_left _ _
    rw [List.cons_append, matchLabel, hs, hdrop, hc]
    rfl

theorem takeWhile_tag (tag rest : List Char) (ht : ∀ c ∈ tag, isWordChar c = true) :
    (tag ++ '\n' :: rest).takeWhile isWordChar = tag := by
  rw [List.takeWhile_append_of_pos ht]
  simp [List.takeWhile_cons, show isWordChar '\n' = false by decide]

theorem drop_takeWhile_length (p : Char → Bool) (l : List Char) :
    l.drop (l.takeWhile p).length = l.dropWhile p := by
  induction l with
  | nil => rfl
  | cons x xs ih =>
    by_cases h : p x = true
    · simp [List.takeWhile_cons, List.dropWhile_cons, h, ih]
    · simp [List.takeWhile_cons, List.dropWhile_cons, h]

theorem fenceAttempt_none_of_shape (s : List Char) (h : openShapeB s = false) :
    fenceAttempt s = none := by
  unfold fenceAttempt
  unfold openShapeB at h
  cases hs : startsWithL ticks s with
  | false => simp [hs]
  | true =>
    rw [hs, Bool.true_and] at h
    simp only [hs, if_true]
    split at h
    · exact absurd h (by simp)
    · rfl

theorem matchFence_skip (d s : List Char)
    (h : ∀ i < d.length, openShapeB ((d ++ s).drop i) = false) :
    matchFence (d ++ s) = matchFence s := by
  induction d with
  | nil => rfl
  | cons x d ih =>
    have h0 : fenceAttempt (x :: (d ++ s)) = none :=
      fenceAttempt_none_of_shape _ (by simpa using h 0 (by simp))
    rw [List.cons_append, matchFence, h0]
    exact ih fun i hi => by
      simpa [List.drop_succ_cons] using h (i + 1) (by simpa using Nat.succ_lt_succ hi)

theorem straddle_impossible (x : Char) (body2 e : List Char)
    (h : startsWithL closePat (x :: (body2 ++ (closePat ++ e))) = true) :
    containsSub closePat (x :: body2) = true := by
  rcases body2 with _ | ⟨y, _ | ⟨z, _ | ⟨w, b4⟩⟩⟩
  · exact absurd h (by simp [closePat, ticks, startsWithL])
  · exact absurd h (by simp [closePat, ticks, startsWithL])
  · exact absurd h (by simp [closePat, ticks, startsWithL])
  · simp only [closePat, ticks, startsWithL, List.cons_append, Bool.and_eq_true,
      beq_iff_eq] at h
    obtain ⟨hx, hy, hz, hw, -⟩ := h
    subst hx hy hz hw
    simp [containsSub, startsWithL, closePat, ticks]

theorem findBeforeClose_exact (body e : List Char)
    (hb : containsSub closePat body = false) :
    findBeforeClose (body ++ (closePat ++ e)) = some body := by
  induction body with
  | nil =>
    have hc : startsWithL closePat ('\n' :: (ticks ++ e)) = true :=
      startsWithL_append_self closePat e
    show findBeforeClose ('\n' :: (ticks ++ e)) = some []
    rw [findBeforeClose, hc]
    rfl
  | cons x body2 ih =>
    rw [containsSub, Bool.or_eq_false_iff] at hb
    have hcond : startsWithL closePat (x :: (body2 ++ (closePat ++ e))) = false := by
      cases hS : startsWithL closePat (x :: (body2 ++ (closePat ++ e))) with
      | false => rfl
      | true =>
        have hcontr := straddle_impossible x body2 e hS
        rw [containsSub, hb.1, hb.2] at hcontr
        exact absurd hcontr (by simp)
    rw [List.cons_append, findBeforeClose, hcond, ih hb.2]
    rfl

theorem fenceAttempt_hit (tag body e : List Char) (ht : ∀ c ∈ tag, isWordChar c = true)
    (hb : containsSub closePat body = false) :
    fenceAttempt (ticks ++ (tag ++ '\n' :: (body ++ (closePat ++ e)))) = some body := by
  unfold fenceAttempt
  rw [startsWithL_append_self, if_pos rfl]
  simp only [List.drop_left' (show ticks.length = 3 from rfl), takeWhile_tag tag _ ht,
    List.drop_left]
  exact findBeforeClose_exact body e hb

theorem matchFence_attempt_some (s b : List Char) (h : fenceAttempt s = some b) :
    matchFence s = some b := by
  cases s with
  | nil => exact Option.noConfusion h
  | cons c cs =>
    rw [matchFence, h]

theorem matchLabel_none_of_noTok (r : List Char)
    (h : ∀ i < r.length, startsWithCI archivoPat (r.drop i) = false) :
    matchLabel r = none := by
  induction r with
  | nil => rfl
  | cons c cs ih =>
    have h0 : startsWithCI archivoPat (c :: cs) = false := by
      simpa using h 0 (by simp)
    rw [matchLabel, h0]
    exact ih fun i hi => by
      simpa [List.drop_succ_cons] using h (i + 1) (by simpa using Nat.succ_lt_succ hi)

theorem findBeforeClose_some (l b : List Char) (h : findBeforeClose l = some b) :
    ∃ v, l = b ++ (closePat ++ v) := by
  induction l generalizing b with
  | nil => exact Option.noConfusion h
  | cons c cs ih =>
    rw [findBeforeClose] at h
    cases hS : startsWithL closePat (c :: cs) with
    | true =>
      rw [hS] at h
      simp at h
      subst h
      obtain ⟨t, ht⟩ := startsWithL_decomp hS
      exact ⟨t, by simpa using ht⟩
    | false =>
      rw [hS] at h
      simp only [Bool.false_eq_true, if_false, Option.map_eq_some'] at h
      obtain ⟨b2, hb2, hcons⟩ := h
      obtain ⟨v, hv⟩ := ih b2 hb2
      exact ⟨v, by rw [← hcons, hv]; rfl⟩

theorem matchFence_some_decomp (r b : List Char) (h : matchFence r = some b) :
    HasFencedBlock r := by
  induction r with
  | nil => exact Option.noConfusion h
  | cons c cs ih =>
    rw [matchFence] at h
    cases hA : fenceAttempt (c :: cs) with
    | none =>
      rw [hA] at h
      obtain ⟨d, tag, body, e, ht, hdecomp⟩ := ih h
      exact ⟨c :: d, tag, body, e, ht, by rw [List.cons_append, ← hdecomp]⟩
    | some b2 =>
      rw [hA] at h
      simp only [Option.some.injEq] at h
      subst h
      unfold fenceAttempt at hA
      cases hS : startsWithL ticks (c :: cs) with
      | false =>
        rw [hS] at hA
        exact Option.noConfusion hA
      | true =>
        rw [hS, if_pos rfl] at hA
        obtain ⟨t, htdecomp⟩ := startsWithL_decomp hS
        split at hA
        · rename_i rest heq
          obtain ⟨v, hv⟩ := findBeforeClose_some rest b2 hA
          refine ⟨[], (c :: cs).drop 3 |>.takeWhile isWordChar, b2, v, ?_, ?_⟩
          · intro ch hch
            exact List.mem_takeWhile_imp hch
          · rw [List.nil_append, htdecomp, List.drop_left' (show ticks.length = 3 from rfl)]
            have hsplit : t.takeWhile isWordChar ++ '\n' :: rest = t := by
              have hdw : t.dropWhile isWordChar = '\n' :: rest := by
                rw [← drop_takeWhile_length isWordChar t]
                rw [htdecomp, List.drop_left' (show ticks.length = 3 from rfl)] at heq
                exact heq
              rw [← hdw]
              exact List.takeWhile_append_dropWhile isWordChar t
            rw [← hv, hsplit]
        · exact Option.noConfusion hA

/-! ## Claim theorems: apply stage -/

/-- C4: the apply branch of the confirmation writes the target file's
content to be exactly the extracted code block — never merged with the
prior content — and writing the same parsed edit twice leaves the very
same file system, so the overwrite is idempotent. -/
theorem apply_overwrites_idempotent (edit : ParsedEdit) (fs : Fs) (clip : Option (List Char)) :
    confirmStage edit (String.data "s") fs clip
        = (fsWrite fs edit.filePath edit.codeBlock, clip, ConfirmOutcome.applied)
    ∧ fsRead (fsWrite fs edit.filePath edit.codeBlock) edit.filePath = some edit.codeBlock
    ∧ fsWrite (fsWrite fs edit.filePath edit.codeBlock) edit.filePath edit.codeBlock
        = fsWrite fs edit.filePath edit.codeBlock := by
  refine ⟨?_, fsRead_fsWrite fs _ _, fsWrite_fsWrite fs _ _⟩
  have h : jsTrim (jsLower (String.data "s")) = String.data "s" := by decide
  simp only [confirmStage, h]
  simp

/-- C3: after lowercasing and trimming, the answers `s`, `si`, `sí`
perform the file write, the answers `c`, `copiar` perform the clipboard
copy, and every other answer leaves both the file system and the
clipboard unchanged. -/
theorem confirm_answer_cases (edit : ParsedEdit) (answer : List Char) (fs : Fs)
    (clip : Option (List Char)) :
    ((jsTrim (jsLower answer) = String.data "s" ∨ jsTrim (jsLower answer) = String.data "si"
        ∨ jsTrim (jsLower answer) = String.data "sí") →
      confirmStage edit answer fs clip
        = (fsWrite fs edit.filePath edit.codeBlock, clip, ConfirmOutcome.applied))
    ∧ ((jsTrim (jsLower answer) = String.data "c"
          ∨ jsTrim (jsLower answer) = String.data "copiar") →
      confirmStage edit answer fs clip = (fs, some edit.codeBlock, ConfirmOutcome.copied))
    ∧ ((jsTrim (jsLower answer) ≠ String.data "s" ∧ jsTrim (jsLower answer) ≠ String.data "si"
          ∧ jsTrim (jsLower answer) ≠ String.data "sí" ∧ jsTrim (jsLower answer) ≠ String.data "c"
          ∧ jsTrim (jsLower answer) ≠ String.data "copiar") →
      confirmStage edit answer fs clip = (fs, clip, ConfirmOutcome.cancelled)) := by
  refine ⟨fun h => ?_, fun h => ?_, fun h => ?_⟩
  · simp only [confirmStage]
    rw [if_pos h]
  · simp only [confirmStage]
    rcases h with h | h <;> rw [h, if_neg (by decide), if_pos (by decide)]
  · obtain ⟨h1, h2, h3, h4, h5⟩ := h
    simp only [confirmStage]
    rw [if_neg (by rintro (h | h | h) <;> [exact h1 h; exact h2 h; exact h3 h]),
      if_neg (by rintro (h | h) <;> [exact h4 h; exact h5 h])]

/-- C3 witness: answer `"n"` cancels and leaves the state unchanged. -/
theorem confirm_answer_cases_witness :
    confirmStage ⟨String.data "a.txt", String.data "x"⟩ (String.data "n") [] none
      = ([], none, ConfirmOutcome.cancelled) :=
  (confirm_answer_cases ⟨String.data "a.txt", String.data "x"⟩ (String.data "n") [] none).2.2
    (by decide)

/-! ## Claim theorems: preview -/

/-- C8: the preview is bounded — `showDiff` prints exactly the first
10 lines of the old and of the new content (fewer when there are fewer),
each followed by a count of the omitted lines exactly when there are more
than 10; the new-file branch prints the first 15 lines with a count of
the omitted lines exactly when there are more than 15. -/
theorem preview_bounded (oldC newC code : List Char) :
    showDiff oldC newC
      = [String.data "\n📋 COMPARACIÓN DE CAMBIOS:", repChar '=' 50,
         String.data "🔴 CONTENIDO ANTERIOR:", repChar '-' 30]
        ++ forEachNumbered 0 ((splitLines oldC).take 10)
        ++ (if (splitLines oldC).length > 10
              then [moreLinesMsg ((splitLines oldC).length - 10)] else [])
        ++ [String.data "\n🟢 CONTENIDO NUEVO:", repChar '-' 30]
        ++ forEachNumbered 0 ((splitLines newC).take 10)
        ++ (if (splitLines newC).length > 10
              then [moreLinesMsg ((splitLines newC).length - 10)] else [])
        ++ [repChar '=' 50]
    ∧ (forEachNumbered 0 ((splitLines oldC).take 10)).length = min 10 (splitLines oldC).length
    ∧ (forEachNumbered 0 ((splitLines newC).take 10)).length = min 10 (splitLines newC).length
    ∧ newFilePreview code
      = [String.data "\n📋 CONTENIDO DEL NUEVO ARCHIVO:", repChar '-' 40,
         joinLines ((splitLines code).take 15)]
        ++ (if (splitLines code).length > 15
              then [moreLinesMsg ((splitLines code).length - 15)] else [])
        ++ [repChar '-' 40]
    ∧ ((splitLines code).take 15).length = min 15 (splitLines code).length := by
  refine ⟨?_, ?_, ?_, ?_, ?_⟩
  · simp [showDiff, jsSlice_zero_take]
  · rw [forEachNumbered_length, List.length_take]
  · rw [forEachNumbered_length, List.length_take]
  · simp [newFilePreview, jsSlice_zero_take]
  · rw [List.length_take]

/-! ## Claim theorems: REPL lifecycle -/

theorem runRepl_cons (rs : List (Option (List Char))) (l : List Char) (ls : List (List Char)) :
    runRepl rs (l :: ls) =
      if isExitCmd (jsTrim l) = true then ⟨1, some 0⟩
      else if (jsTrim l).isEmpty = true then runRepl rs ls
      else
        match rs with
        | [] => runRepl [] ls
        | none :: rs2 => runRepl rs2 ls
        | some rep :: rs2 =>
          if (parseAIResponse rep).isNone then runRepl rs2 ls
          else
            match ls with
            | [] => ⟨0, none⟩
            | _ :: ls2 => runRepl rs2 ls2 := by
  rw [runRepl.eq_def]

theorem runRepl_step_exit (rs : List (Option (List Char))) (l : List Char)
    (ls : List (List Char)) (he : isExitCmd (jsTrim l) = true) :
    runRepl rs (l :: ls) = ⟨1, some 0⟩ := by
  rw [runRepl_cons, if_pos he]

theorem runRepl_step_empty (rs : List (Option (List Char))) (l : List Char)
    (ls : List (List Char)) (he : isExitCmd (jsTrim l) = false)
    (hemp : (jsTrim l).isEmpty = true) :
    runRepl rs (l :: ls) = runRepl rs ls := by
  rw [runRepl_cons]
  simp [he, hemp]

theorem runRepl_step_noreply (l : List Char) (ls : List (List Char))
    (he : isExitCmd (jsTrim l) = false) (hemp : (jsTrim l).isEmpty = false) :
    runRepl [] (l :: ls) = runRepl [] ls := by
  rw [runRepl_cons]
  simp [he, hemp]

theorem runRepl_step_remoteErr (rs2 : List (Option (List Char))) (l : List Char)
    (ls : List (List Char)) (he : isExitCmd (jsTrim l) = false)
    (hemp : (jsTrim l).isEmpty = false) :
    runRepl (none :: rs2) (l :: ls) = runRepl rs2 ls := by
  rw [runRepl_cons]
  simp [he, hemp]

theorem runRepl_step_parseFail (rs2 : List (Option (List Char))) (rep l : List Char)
    (ls : List (List Char)) (he : isExitCmd (jsTrim l) = false)
    (hemp : (jsTrim l).isEmpty = false) (hp : (parseAIResponse rep).isNone = true) :
    runRepl (some rep :: rs2) (l :: ls) = runRepl rs2 ls := by
  rw [runRepl_cons]
  simp [he, hemp, hp]

theorem runRepl_step_wait (rs2 : List (Option (List Char))) (rep l : List Char)
    (he : isExitCmd (jsTrim l) = false) (hemp : (jsTrim l).isEmpty = false)
    (hp : (parseAIResponse rep).isNone = false) :
    runRepl (some rep :: rs2) [l] = ⟨0, none⟩ := by
  rw [runRepl_cons]
  simp [he, hemp, hp]

theorem runRepl_step_confirm (rs2 : List (Option (List Char))) (rep l a : List Char)
    (ls2 : List (List Char)) (he : isExitCmd (jsTrim l) = false)
    (hemp : (jsTrim l).isEmpty = false) (hp : (parseAIResponse rep).isNone = false) :
    runRepl (some rep :: rs2) (l :: a :: ls2) = runRepl rs2 ls2 := by
  rw [runRepl_cons]
  simp [he, hemp, hp]

theorem runRepl_exit0_closes :
    ∀ (n : Nat) (ls : List (List Char)) (rs : List (Option (List Char))),
      ls.length ≤ n → (runRepl rs ls).exitCode = some 0 →
      (runRepl rs ls).browserCloses = 1 := by
  intro n
  induction n with
  | zero =>
    intro ls rs hlen h
    have hnil : ls = [] := List.length_eq_zero.mp (Nat.le_zero.mp hlen)
    subst hnil
    simp [runRepl] at h
  | succ n ih =>
    intro ls rs hlen h
    cases ls with
    | nil => simp [runRepl] at h
    | cons l ls =>
      have hlen2 : ls.length ≤ n := by
        simpa using Nat.le_of_succ_le_succ hlen
      cases he : isExitCmd (jsTrim l) with
      | true => rw [runRepl_step_exit rs l ls he]
      | false =>
        cases hemp : (jsTrim l).isEmpty with
        | true =>
          rw [runRepl_step_empty rs l ls he hemp] at h ⊢
          exact ih ls rs hlen2 h
        | false =>
          cases rs with
          | nil =>
            rw [runRepl_step_noreply l ls he hemp] at h ⊢
            exact ih ls [] hlen2 h
          | cons o rs2 =>
            cases o with
            | none =>
              rw [runRepl_step_remoteErr rs2 l ls he hemp] at h ⊢
              exact ih ls rs2 hlen2 h
            | some rep =>
              cases hp : (parseAIResponse rep).isNone with
              | true =>
                rw [runRepl_step_parseFail rs2 rep l ls he hemp hp] at h ⊢
                exact ih ls rs2 hlen2 h
              | false =>
                cases ls with
                | nil =>
                  rw [runRepl_step_wait rs2 rep l he hemp hp] at h
                  exact Option.noConfusion h
                | cons a ls2 =>
                  rw [runRepl_step_confirm rs2 rep l a ls2 he hemp hp] at h ⊢
                  exact ih ls2 rs2 (by simp at hlen2 ⊢; omega) h

/-- C9: an exit token (`salir`/`exit`, case-insensitive) entered at the
prompt makes the run close the browser session exactly once and exit
with code 0 — indeed any run that exits with code 0 closed the browser
exactly once — while a fatal setup error (before or after the browser
exists) or an unhandled top-level rejection exits with code 1. -/
theorem repl_exit_behavior :
    (∀ (rs : List (Option (List Char))) (l : List Char) (ls : List (List Char)),
        isExitCmd (jsTrim l) = true → runRepl rs (l :: ls) = ⟨1, some 0⟩)
    ∧ (∀ (rs : List (Option (List Char))) (ls : List (List Char)),
        (runRepl rs ls).exitCode = some 0 → (runRepl rs ls).browserCloses = 1)
    ∧ (∀ rs ls, runMain SetupResult.failBeforeBrowser rs ls = ⟨0, some 1⟩)
    ∧ (∀ rs ls, runMain SetupResult.failAfterBrowser rs ls = ⟨1, some 1⟩)
    ∧ (∀ rs ls, runMain SetupResult.unhandledRejection rs ls = ⟨0, some 1⟩) := by
  refine ⟨?_, ?_, fun rs ls => rfl, fun rs ls => rfl, fun rs ls => rfl⟩
  · intro rs l ls h
    rw [runRepl_cons, if_pos h]
  · intro rs ls
    exact runRepl_exit0_closes ls.length ls rs le_rfl

/-- C9 witness: the literal input `exit` closes the session once and
exits with code 0. -/
theorem repl_exit_behavior_witness :
    runRepl [] [String.data "exit"] = ⟨1, some 0⟩ :=
  repl_exit_behavior.1 [] (String.data "exit") [] (by decide)

/-! ## Claim theorems: context collector skips -/

/-- C6: an unreadable file (read/decode failure) or an entry whose `stat`
fails is skipped and the traversal continues — the produced context is
exactly the one of the same tree without that entry, at any depth and at
any position among its siblings. -/
theorem context_skips_unreadable (base n : List Char) (xs ys : List FsEntry) :
    getProjectContext base (xs ++ FsEntry.file n none :: ys)
        = getProjectContext base (xs ++ ys)
    ∧ getProjectContext base (xs ++ FsEntry.broken n :: ys)
        = getProjectContext base (xs ++ ys) := by
  constructor
  · rw [getProjectContext_append, getProjectContext_append]
    rw [show getProjectContext base (FsEntry.file n none :: ys)
        = ctxEntry base (FsEntry.file n none) ++ getProjectContext base ys from rfl]
    rw [ctxEntry_file_unreadable]
    rfl
  · rw [getProjectContext_append, getProjectContext_append]
    rfl

/-- C10: the name ignore set applies at every depth: an entry named
`index.js` — file or directory — contributes nothing to the context
wherever it sits in the tree, not only the tool's own script at the root. -/
theorem indexjs_ignored_everywhere (base : List Char) (e : FsEntry)
    (xs ys : List FsEntry) (h : entryName e = String.data "index.js") :
    ctxEntry base e = []
    ∧ getProjectContext base (xs ++ e :: ys) = getProjectContext base (xs ++ ys) := by
  have hctx : ctxEntry base e = [] := by
    cases e with
    | file n c =>
      simp only [entryName] at h
      subst h
      unfold ctxEntry
      rw [if_pos (by decide)]
    | dir n ch =>
      simp only [entryName] at h
      subst h
      unfold ctxEntry
      rw [if_pos (by decide)]
    | special n => rfl
    | broken n => rfl
  refine ⟨hctx, ?_⟩
  rw [getProjectContext_append, getProjectContext_append,
    show getProjectContext base (e :: ys) = ctxEntry base e ++ getProjectContext base ys from rfl,
    hctx]
  rfl

/-- C7: the produced context is the concatenation, for every included
file in depth-first traversal order, of its header marker, its raw text
and its footer marker — `includedList` lists the (relative path, text)
pairs depth-first, inserting a subdirectory's whole contribution at the
subdirectory's position in the listing. -/
theorem context_concat_depth_first (base : List Char) (es : List FsEntry) :
    getProjectContext base es = renderFiles (includedList base es) :=
  ctx_renders_list base es

/-- C5: the context contains exactly the files selected by the ignore
rules — over all file nodes of the tree, a file contributes iff it is
readable, no component of its path (its own name included) is in the
name ignore set, and its lowercased extension is not in the binary/media
extension set; nothing else is included and no such file is omitted. -/
theorem context_ignores_exactly (es : List FsEntry) :
    includedList [] es = (allFilesList [] es).filterMap includeCond
    ∧ getProjectContext [] es
        = renderFiles ((allFilesList [] es).filterMap includeCond) := by
  have h : includedList [] es = (allFilesList [] es).filterMap includeCond :=
    includedList_filter [] (by simp) es
  exact ⟨h, by rw [ctx_renders_list [] es, h]⟩

/-- C10 witness: a directory named `index.js` nested below the root
contributes nothing. -/
theorem indexjs_ignored_everywhere_witness :
    ctxEntry (String.data "sub") (FsEntry.dir (String.data "index.js")
        [FsEntry.file (String.data "a.txt") (some (String.data "x"))]) = []
    ∧ getProjectContext (String.data "sub")
        [FsEntry.dir (String.data "index.js")
          [FsEntry.file (String.data "a.txt") (some (String.data "x"))]]
      = getProjectContext (String.data "sub") [] :=
  indexjs_ignored_everywhere (String.data "sub")
    (FsEntry.dir (String.data "index.js")
      [FsEntry.file (String.data "a.txt") (some (String.data "x"))]) [] [] (by decide)

/-! ## Claim theorems: response parser -/

/-- C1: for a reply containing the (case-insensitive) `ARCHIVO:` label
line — its first occurrence, with a path on the line — and at least one
fenced code block, `parseAIResponse` returns a parsed edit whose
`filePath` is the trimmed remainder of the label line and whose
`codeBlock` is exactly the interior of the first fenced block (optional
word-character language tag, newline, content, newline, closing fence),
ignoring any trailing explanation text. -/
theorem parse_extracts_label_and_first_fence
    (r a lbl b c₁ d tag body e : List Char)
    (hr1 : r = a ++ (lbl ++ (b ++ '\n' :: c₁)))
    (hlbl : ciEqL lbl archivoPat = true)
    (hfirst : ∀ i < a.length, startsWithCI archivoPat (r.drop i) = false)
    (hbnl : '\n' ∉ b)
    (hbne : jsTrim b ≠ [])
    (hr2 : r = d ++ (ticks ++ (tag ++ '\n' :: (body ++ (closePat ++ e)))))
    (htag : ∀ ch ∈ tag, isWordChar ch = true)
    (hdfirst : ∀ i < d.length, openShapeB (r.drop i) = false)
    (hbody : containsSub closePat body = false) :
    parseAIResponse r = some ⟨jsTrim b, body⟩ := by
  subst hr1
  have hlabel : matchLabel (a ++ (lbl ++ (b ++ '\n' :: c₁)))
      = some (b.dropWhile isJsWs) := by
    rw [matchLabel_skip a _ hfirst]
    exact matchLabel_hit lbl _ _ hlbl (wsCapture_content b c₁ hbnl hbne)
  have hfence : matchFence (a ++ (lbl ++ (b ++ '\n' :: c₁))) = some body := by
    rw [hr2] at hdfirst ⊢
    rw [matchFence_skip d _ hdfirst]
    exact matchFence_attempt_some _ _ (fenceAttempt_hit tag body e htag hbody)
  unfold parseAIResponse
  rw [hlabel, hfence]
  simp [jsTrim_dropWhile]

/-- C1 witness: the spec's example reply yields
`{filePath := "src/a.txt", codeBlock := "hello"}`. -/
theorem parse_extracts_label_and_first_fence_witness :
    parseAIResponse (String.data "ARCHIVO: src/a.txt\n```text\nhello\n```\nEXPLICACIÓN: ...")
      = some ⟨String.data "src/a.txt", String.data "hello"⟩ := by
  have h := parse_extracts_label_and_first_fence
    (String.data "ARCHIVO: src/a.txt\n```text\nhello\n```\nEXPLICACIÓN: ...")
    [] (String.data "ARCHIVO:") (String.data " src/a.txt")
    (String.data "```text\nhello\n```\nEXPLICACIÓN: ...")
    (String.data "ARCHIVO: src/a.txt\n") (String.data "text") (String.data "hello")
    (String.data "\nEXPLICACIÓN: ...")
    (by decide) (by decide) (by decide) (by decide) (by decide) (by decide) (by decide)
    (by decide) (by decide)
  exact h.trans (by decide)

/-- C2: a reply lacking the `ARCHIVO:` label token or lacking a complete
fenced code block parses to `null`, and in that case the turn leaves the
file system and the clipboard untouched and reports a recoverable parse
failure, returning to the prompt. -/
theorem parse_failure_writes_nothing (r : List Char)
    (h : ¬ HasLabelTok r ∨ ¬ HasFencedBlock r) :
    parseAIResponse r = none
    ∧ ∀ (answer : List Char) (fs : Fs) (clip : Option (List Char)),
        processTurn r answer fs clip = (fs, clip, TurnOutcome.parseFailed) := by
  have hnone : parseAIResponse r = none := by
    rcases h with h | h
    · have hml : matchLabel r = none := matchLabel_none_of_noTok r (by
        intro i hi
        cases hS : startsWithCI archivoPat (r.drop i) with
        | false => rfl
        | true => exact absurd ⟨i, hi, hS⟩ h)
      unfold parseAIResponse
      rw [hml]
    · cases hF : matchFence r with
      | none =>
        unfold parseAIResponse
        cases matchLabel r with
        | none => rfl
        | some cap => rw [hF]
      | some b => exact absurd (matchFence_some_decomp r b hF) h
  refine ⟨hnone, fun answer fs clip => ?_⟩
  unfold processTurn
  rw [hnone]

/-- C2 witness: a reply with no label token parses to `null` and the
turn changes nothing. -/
theorem parse_failure_writes_nothing_witness :
    parseAIResponse (String.data "hola sin etiqueta") = none
    ∧ processTurn (String.data "hola sin etiqueta") (String.data "s") [] none
        = ([], none, TurnOutcome.parseFailed) := by
  have h := parse_failure_writes_nothing (String.data "hola sin etiqueta")
    (Or.inl (by
      rintro ⟨i, hi, hS⟩
      have hall : ∀ j < (String.data "hola sin etiqueta").length,
          startsWithCI archivoPat ((String.data "hola sin etiqueta").drop j) = false := by
        decide
      rw [hall i hi] at hS
      exact Bool.noConfusion hS))
  exact ⟨h.1, h.2 (String.data "s") [] none⟩

end ProyectoIA
